import Mathlib

/-!
Verification of the fast k-ReLU relaxation front end (`fconv/fkrelu.cpp`).

The source file is embedded shallowly: Eigen's `MatrixXd` becomes a list of
rows of exact rationals together with an explicit column count (the `double`
entries are modelled as exact rationals, matching the exact-arithmetic reading
of the specification), `vector<bset>` becomes `List (List Bool)`, and each
`ASRTF` assertion becomes an `Except` error.  The pipeline stages that
`fkrelu.cpp` calls but whose code lives in other translation units
(`compute_octahedron_V`, `split_in_quadrants`, `compute_maximal_indexes`,
`decomposition`, `compute_quadrants_with_cdd`, the cdd backend and the
octahedron coefficient tables) are either taken as explicit function
parameters constrained by their specified contracts, or modelled from the
specification where noted.
-/

deriving instance DecidableEq for Except

namespace ELINA

/-- Sign label of one dimension of a quadrant. -/
inductive Sign where
  | MINUS
  | PLUS
deriving DecidableEq, Repr

/-- A quadrant: one sign label per input dimension. -/
abbrev Quadrant := List Sign

/-- Dense matrix of exact rationals: `cols` is the Eigen matrix's column
count, `data` its rows (`rows × cols`). -/
structure MatQ where
  cols : Nat
  data : List (List ℚ)
deriving DecidableEq, Repr

/-- Number of rows, `A.rows()`. -/
def MatQ.rows (A : MatQ) : Nat := A.data.length

/-- Entry `A(i, j)`. -/
def MatQ.entry (A : MatQ) (i j : Nat) : ℚ := (A.data.getD i []).getD j 0

/-- Well-formedness: every row has length `cols`. -/
def MatQ.Wf (A : MatQ) : Prop := ∀ r ∈ A.data, r.length = A.cols

instance (A : MatQ) : Decidable A.Wf := by
  unfold MatQ.Wf; infer_instance

/-- Failure sites of the `ASRTF` assertions in `fkrelu.cpp`, by message. -/
inductive FkErr where
  /-- "K should be within allowed range." -/
  | invalidK
  /-- "Unexpected number of rows in the input." -/
  | invalidRows
  /-- "Input is not of correct format." -/
  | invalidFormat
  /-- "Unsoundness - lower bound should be <= then upper bound." -/
  | boundsOrder
  /-- "Expecting non-trivial input where lb < 0 < ub." -/
  | boundsSign
  /-- "The function doesn't support empty input." -/
  | emptyIncidence
  /-- "Converting matrix to polytope failed with error ..." -/
  | ddConversion
deriving DecidableEq, Repr

/-- The errors raised by the octahedral input validation: malformed input. -/
def FkErr.isMalformed : FkErr → Bool
  | .invalidK => true
  | .invalidRows => true
  | .invalidFormat => true
  | _ => false

/-- `bset::test`: bit `col` of a bitset. -/
def bset_test (b : List Bool) (col : Nat) : Bool := b.getD col false

/-- `transpose_incidence` (fkrelu.cpp, lines 11-30): the output has one bitset
per column of the input, and bit `row` of output bitset `col` is set exactly
when bit `col` of input bitset `row` is set.  Rejects empty input. -/
def transpose_incidence (input : List (List Bool)) :
    Except FkErr (List (List Bool)) :=
  if input.isEmpty then .error .emptyIncidence
  else
    let num_rows := input.length
    let num_cols := (input.headD []).length
    .ok ((List.range num_cols).map fun col =>
      (List.range num_rows).map fun row => bset_test (input.getD row []) col)

/-- `relu_1` (fkrelu.cpp, lines 33-49): analytical triangle relaxation of the
one-dimensional ReLU on `[lb, ub]`. -/
def relu_1 (lb ub : ℚ) : Except FkErr MatQ :=
  if ¬ lb ≤ ub then .error .boundsOrder
  else if ¬ (lb < 0 ∧ 0 < ub) then .error .boundsSign
  else
    let lmd : ℚ := -lb * ub / (ub - lb)
    let mu : ℚ := ub / (ub - lb)
    .ok ⟨3, [[0, 0, 1], [0, -1, 1], [lmd, mu, -1]]⟩

/-- Modelled from the spec: `POW3` (declared in the octahedron headers, which
are not under src/) — the row-count table, `3^K` powers of three. -/
def POW3 (K : Nat) : Nat := 3 ^ K

/-- Modelled from the spec: the sign-combination rows behind
`K2OCTAHEDRON_COEFS` — "every nonzero sign combination over the K dims";
here all vectors over the digits 1, -1, 0 before the nonzero filter. -/
def sign_rows : Nat → List (List ℤ)
  | 0 => [[]]
  | K + 1 => ([1, -1, 0] : List ℤ).flatMap fun d => (sign_rows K).map fun r => d :: r

/-- Modelled from the spec: `K2OCTAHEDRON_COEFS` (declared in the octahedron
headers, not under src/) — the static per-K octahedron coefficient table,
"every nonzero sign combination over the K dims" (`3^K - 1` rows).  For K = 1
the table is `[[1], [-1]]`, consistent with `fkrelu`'s use of row 0 as the
lower-bound row and row 1 as the upper-bound row. -/
def K2OCTAHEDRON_COEFS (K : Nat) : List (List ℤ) :=
  (sign_rows K).filter fun r => r ≠ List.replicate K 0

/-- `verify_fkrelu_input` (fkrelu.cpp, lines 51-63): K in range, exactly
`3^K - 1` rows, and every non-constant coefficient matching the table. -/
def verify_fkrelu_input (A : MatQ) : Except FkErr Unit :=
  let K := A.cols - 1
  if ¬ (1 ≤ K ∧ K ≤ 4) then .error .invalidK
  else if ¬ A.rows = POW3 K - 1 then .error .invalidRows
  else if (List.range A.rows).all (fun i => (List.range K).all fun j =>
      decide (A.entry i (j + 1) = ((((K2OCTAHEDRON_COEFS K).getD i []).getD j 0 : ℤ) : ℚ)))
    then .ok ()
  else .error .invalidFormat

/-- Input acceptance: `verify_fkrelu_input` succeeds. -/
def validInput (A : MatQ) : Prop := verify_fkrelu_input A = .ok ()

instance (A : MatQ) : Decidable (validInput A) := by
  unfold validInput; infer_instance

/-- Output of `compute_octahedron_V` (code not under src/): exact vertex set,
vertex-to-constraint incidence and orthant adjacencies. -/
structure OctahedronV where
  V : List (List ℚ)
  incidence : List (List Bool)
  orthant_adjacencies : List (Nat × Nat)

/-- One quadrant's share of the vertex set: vertices and their
vertex-to-constraint incidence (`split_in_quadrants` output, code not
under src/). -/
structure QuadrantInfo where
  V : List (List ℚ)
  V_to_H_incidence : List (List Bool)
deriving DecidableEq

/-- Polyhedron dual description: dimension, vertex matrix, halfspace matrix,
and constraint-to-vertex incidence. -/
structure PDD where
  dim : Nat
  V : MatQ
  H : MatQ
  incidence : List (List Bool)
deriving DecidableEq, Repr

/-- The per-quadrant halfspace synthesis of `fkrelu` (fkrelu.cpp, lines
103-121): row `i` comes from maximal index `maximal_H[i]`; indices below
`A.rows()` copy the corresponding row of `A`, larger indices synthesize the
axis-aligned ReLU facet of dimension `maximal - A.rows()`, signed by the
quadrant's label for that dimension. -/
def build_H (A : MatQ) (K : Nat) (quadrant : Quadrant) (maximal_H : List Nat) :
    MatQ :=
  ⟨K + 1, maximal_H.map fun maximal =>
    if maximal < A.rows then A.data.getD maximal []
    else
      let xi := maximal - A.rows
      (List.replicate (K + 1) (0 : ℚ)).set (xi + 1)
        (if quadrant.getD xi Sign.MINUS = Sign.MINUS then -1 else 1)⟩

/-- The body of `fkrelu`'s per-quadrant loop (fkrelu.cpp, lines 81-124) for
one quadrant: an empty vertex list yields the empty PDD; otherwise the
incidence is transposed, the maximal constraint indices are computed by the
(externally supplied) `compute_maximal_indexes`, and the halfspace matrix is
built by `build_H`. -/
def quadrant_pdd (A : MatQ) (K : Nat) (cmi : List (List Bool) → List Nat)
    (quadrant : Quadrant) (info : QuadrantInfo) : Except FkErr PDD :=
  if info.V.isEmpty then .ok ⟨K + 1, ⟨K + 1, []⟩, ⟨K + 1, []⟩, []⟩
  else
    match transpose_incidence info.V_to_H_incidence with
    | .error e => .error e
    | .ok incidence_H_to_V_with_redundancy =>
      let maximal_H := cmi incidence_H_to_V_with_redundancy
      let H := build_H A K quadrant maximal_H
      let incidence_H_to_V :=
        maximal_H.map fun m => incidence_H_to_V_with_redundancy.getD m []
      .ok ⟨K + 1, ⟨K + 1, info.V⟩, H, incidence_H_to_V⟩

/-- The quadrant-to-PDD map built by `fkrelu`'s loop, in iteration order. -/
def quadrant2pddMap (A : MatQ) (K : Nat) (cmi : List (List Bool) → List Nat) :
    List (Quadrant × QuadrantInfo) → Except FkErr (List (Quadrant × PDD))
  | [] => .ok []
  | (q, info) :: rest =>
    match quadrant_pdd A K cmi q info with
    | .error e => .error e
    | .ok pdd =>
      match quadrant2pddMap A K cmi rest with
      | .error e => .error e
      | .ok tail => .ok ((q, pdd) :: tail)

/-- Modelled from the spec: `decomposition` (decomposition.h, code not under
src/) — "assemble and deduplicate the halfspace rows contributed by all
quadrants into the single output matrix for the K-dimensional relaxation". -/
def decomposition (quadrant2pdd : List (Quadrant × PDD)) (K : Nat) : MatQ :=
  ⟨K + 1, (quadrant2pdd.flatMap fun p => p.2.H.data).dedup⟩

/-- `fkrelu` (fkrelu.cpp, lines 65-126), parameterized by the pipeline stages
whose code is in other translation units: the octahedron vertex enumerator
`oct`, the quadrant splitter `split` and the maximal-index computation
`cmi`. -/
def fkrelu (oct : MatQ → OctahedronV)
    (split : OctahedronV → Nat → List (Quadrant × QuadrantInfo))
    (cmi : List (List Bool) → List Nat) (A : MatQ) : Except FkErr MatQ :=
  let K := A.cols - 1
  if ¬ (1 ≤ K ∧ K ≤ 4) then .error .invalidK
  else
    match verify_fkrelu_input A with
    | .error e => .error e
    | .ok _ =>
      if K = 1 then relu_1 (-(A.entry 0 0)) (A.entry 1 0)
      else
        match quadrant2pddMap A K cmi (split (oct A) K) with
        | .error e => .error e
        | .ok pdds => .ok (decomposition pdds K)

/-- One generator row of `krelu_with_cdd` (fkrelu.cpp, lines 149-162): a
zero row of width `2K + 1` (cdd matrices are allocated zeroed), the first
`K + 1` entries set to the vertex's coordinates, and output column
`1 + i + K` set to coordinate `1 + i` exactly for PLUS dimensions. -/
def build_vertex_row (K : Nat) (quadrant : Quadrant) (v : List ℚ) : List ℚ :=
  let row0 := List.replicate (2 * K + 1) (0 : ℚ)
  let row1 := (List.range (K + 1)).foldl (fun r i => r.set i (v.getD i 0)) row0
  (List.range K).foldl
    (fun r i =>
      if quadrant.getD i Sign.MINUS = Sign.PLUS then r.set (1 + i + K) (v.getD (1 + i) 0)
      else r)
    row1

/-- The combined generator matrix of `krelu_with_cdd` (fkrelu.cpp, lines
138-166): one row per vertex over all quadrants, in iteration order. -/
def build_generator (K : Nat) (infos : List (Quadrant × QuadrantInfo)) :
    List (List ℚ) :=
  infos.flatMap fun p => p.2.V.map (build_vertex_row K p.1)

/-- Maximum absolute coefficient of a row
(`H.row(i).array().abs().maxCoeff()`). -/
def row_max_abs (r : List ℚ) : ℚ := r.foldl (fun m x => max m |x|) 0

/-- The normalization loop of `krelu_with_cdd` (fkrelu.cpp, lines 175-178):
each row is divided by its maximum absolute coefficient. -/
def normalize_rows (H : MatQ) : MatQ :=
  ⟨H.cols, H.data.map fun r => r.map fun x => x / row_max_abs r⟩

/-- `krelu_with_cdd` (fkrelu.cpp, lines 128-185), parameterized by the
stages in other translation units: the quadrant computation
`compute_quadrants_with_cdd` and the cdd double-description backend
(`dd_DDMatrix2Poly` followed by `dd_CopyInequalities` and `cdd2eigen`),
which either fails — `ASRTF` on a cdd error — or yields the inequality
matrix. -/
def krelu_with_cdd (quadrants : MatQ → List (Quadrant × QuadrantInfo))
    (ddSolve : List (List ℚ) → Option MatQ) (A : MatQ) : Except FkErr MatQ :=
  let K := A.cols - 1
  if ¬ (1 ≤ K ∧ K ≤ 4) then .error .invalidK
  else
    let quadrant2info := quadrants A
    let vertices := build_generator K quadrant2info
    match ddSolve vertices with
    | none => .error .ddConversion
    | some inequalities => .ok (normalize_rows inequalities)

/-- Exact dot product of a constraint row with a homogeneous vertex. -/
def dotQ (h v : List ℚ) : ℚ := (List.zipWith (· * ·) h v).sum

/-- The quadrant splitter's contract for one vertex (modelled from the spec:
vertices retained for a quadrant are "strictly or boundary-consistent with
that quadrant's sign pattern"): coordinate `i + 1` is nonnegative for PLUS
dimensions and nonpositive for MINUS dimensions. -/
def signConsistent (quadrant : Quadrant) (v : List ℚ) : Prop :=
  ∀ i, i < quadrant.length →
    ((quadrant.getD i Sign.MINUS = Sign.PLUS → 0 ≤ v.getD (i + 1) 0) ∧
     (quadrant.getD i Sign.MINUS = Sign.MINUS → v.getD (i + 1) 0 ≤ 0))

instance (q : Quadrant) (v : List ℚ) : Decidable (signConsistent q v) := by
  unfold signConsistent; infer_instance

/-- Trivial octahedron enumerator stand-in used to instantiate the stage
parameters at concrete inputs. -/
def octTriv : MatQ → OctahedronV := fun _ => ⟨[], [], []⟩

/-- Trivial quadrant splitter stand-in. -/
def splitTriv : OctahedronV → Nat → List (Quadrant × QuadrantInfo) := fun _ _ => []

/-- Trivial maximal-index computation stand-in. -/
def cmiTriv : List (List Bool) → List Nat := fun _ => []

/-- A valid K = 1 octahedral input with lb = -1, ub = 2. -/
def AK1 : MatQ := ⟨2, [[1, 1], [2, -1]]⟩

/-- A malformed K = 1 input: one row instead of the required two. -/
def AK1bad : MatQ := ⟨2, [[1, 1]]⟩

/-- A one-row K = 2 halfspace matrix used to instantiate the per-quadrant
contracts at a concrete input. -/
def AW : MatQ := ⟨3, [[1, 0, 0]]⟩

/-- Concrete maximal-index choice for the `AW` instance. -/
def cmiW : List (List Bool) → List Nat := fun _ => [0, 1, 2]

/-- Concrete quadrant map for the `AW` instance: the all-PLUS quadrant
holding the single vertex (0, 0). -/
def infosW : List (Quadrant × QuadrantInfo) :=
  [([Sign.PLUS, Sign.PLUS], ⟨[[1, 0, 0]], [[true]]⟩)]

/-- The PDD the loop builds for the `AW` instance. -/
def pddW : PDD :=
  ⟨3, ⟨3, [[1, 0, 0]]⟩, ⟨3, [[1, 0, 0], [0, 1, 0], [0, 0, 1]]⟩, [[true], [], []]⟩

/-- Concrete incidence list for the transpose round-trip instance. -/
def incW : List (List Bool) := [[true, false], [false, true], [true, true]]

/-- Concrete quadrant map holding one empty quadrant. -/
def infosE : List (Quadrant × QuadrantInfo) := [([Sign.MINUS, Sign.MINUS], ⟨[], []⟩)]

/-- Concrete quadrant for the generator-row instance. -/
def qW : Quadrant := [Sign.PLUS, Sign.MINUS]

/-- Concrete vertex for the generator-row instance. -/
def vW : List ℚ := [1, 2, 3]

/-- Concrete quadrant map for the generator-row instance. -/
def infosV : List (Quadrant × QuadrantInfo) := [(qW, ⟨[vW], [[true]]⟩)]

/-- Entry of a list updated at one position. -/
theorem getD_set {α : Type} (l : List α) (i j : Nat) (a d : α) :
    (l.set i a).getD j d = if i = j ∧ j < l.length then a else l.getD j d := by
  rw [List.getD_eq_getElem?_getD, List.getD_eq_getElem?_getD, List.getElem?_set]
  by_cases hij : i = j
  · subst hij
    by_cases hi : i < l.length
    · simp [hi]
    · have hnone : l[i]? = none := List.getElem?_eq_none (by omega)
      simp [hi, hnone]
  · simp [hij]

/-- Entries of a replicated zero row. -/
theorem getD_replicate_zero (n j : Nat) :
    (List.replicate n (0 : ℚ)).getD j 0 = 0 := by
  rw [List.getD_eq_getElem?_getD, List.getElem?_replicate]
  split <;> rfl

/-- Reading every position of a list in order reproduces the list. -/
theorem map_range_getD {α : Type} (l : List α) (d : α) :
    (List.range l.length).map (fun i => l.getD i d) = l := by
  apply List.ext_getElem
  · simp
  · intro n h1 h2
    simp only [List.getElem_map, List.getElem_range]
    exact List.getD_eq_getElem l d h2

/-- Members of a list by in-range default lookup. -/
theorem getD_mem {α : Type} (l : List α) (d : α) (m : Nat) (h : m < l.length) :
    l.getD m d ∈ l := by
  rw [List.getD_eq_getElem l d h]
  exact List.getElem_mem h

/-- Dot product against an all-zero row vanishes. -/
theorem dotQ_replicate_zero (n : Nat) (v : List ℚ) :
    dotQ (List.replicate n 0) v = 0 := by
  induction n generalizing v with
  | zero => simp [dotQ]
  | succ n ih =>
    cases v with
    | nil => simp [dotQ]
    | cons x vs => simpa [dotQ, List.replicate_succ] using ih vs

/-- Dot product against a zero row with one entry set picks that entry. -/
theorem dotQ_zero_set (c : ℚ) (j : Nat) :
    ∀ (n : Nat) (v : List ℚ), j < n → v.length = n →
      dotQ ((List.replicate n (0 : ℚ)).set j c) v = c * v.getD j 0 := by
  induction j with
  | zero =>
    intro n v hj hv
    cases n with
    | zero => omega
    | succ m =>
      cases v with
      | nil => simp at hv
      | cons x vs =>
        simp [List.replicate_succ, dotQ, List.zipWith_cons_cons]
        have := dotQ_replicate_zero m vs
        simp [dotQ] at this
        simp [this]
  | succ j ih =>
    intro n v hj hv
    cases n with
    | zero => omega
    | succ m =>
      cases v with
      | nil => simp at hv
      | cons x vs =>
        have hv' : vs.length = m := by simpa using hv
        have := ih m vs (by omega) hv'
        simp [List.replicate_succ, dotQ, List.zipWith_cons_cons] at this ⊢
        simp [this]

/-- The only `ASRTF` of `transpose_incidence` is the empty-input check. -/
theorem transpose_incidence_error_eq {input : List (List Bool)} {e : FkErr}
    (h : transpose_incidence input = .error e) : e = .emptyIncidence := by
  unfold transpose_incidence at h
  split at h
  · cases h; rfl
  · cases h

/-- `relu_1` fails only at one of its two bound checks. -/
theorem relu_1_error_cases {lb ub : ℚ} {e : FkErr}
    (h : relu_1 lb ub = .error e) : e = .boundsOrder ∨ e = .boundsSign := by
  unfold relu_1 at h
  split at h
  · cases h; exact Or.inl rfl
  · split at h
    · cases h; exact Or.inr rfl
    · cases h

/-- On bounds straddling zero, `relu_1` returns the triangle matrix. -/
theorem relu_1_ok {lb ub : ℚ} (h1 : lb < 0) (h2 : 0 < ub) :
    relu_1 lb ub =
      .ok ⟨3, [[0, 0, 1], [0, -1, 1],
        [-lb * ub / (ub - lb), ub / (ub - lb), -1]]⟩ := by
  rw [relu_1, if_neg (not_not_intro (le_of_lt (h1.trans h2))),
    if_neg (not_not_intro ⟨h1, h2⟩)]

/-- Failures of the per-quadrant loop body come from the transpose check. -/
theorem quadrant_pdd_error_eq {A : MatQ} {K : Nat}
    {cmi : List (List Bool) → List Nat} {q : Quadrant} {info : QuadrantInfo}
    {e : FkErr} (h : quadrant_pdd A K cmi q info = .error e) :
    e = .emptyIncidence := by
  unfold quadrant_pdd at h
  split at h
  · cases h
  · split at h
    · next heq => cases h; exact transpose_incidence_error_eq heq
    · cases h

/-- Failures of the whole per-quadrant loop come from the transpose check. -/
theorem quadrant2pddMap_error_eq {A : MatQ} {K : Nat}
    {cmi : List (List Bool) → List Nat} {e : FkErr} :
    ∀ {infos : List (Quadrant × QuadrantInfo)},
      quadrant2pddMap A K cmi infos = .error e → e = .emptyIncidence
  | [], h => by simp [quadrant2pddMap] at h
  | (q, info) :: rest, h => by
    rw [quadrant2pddMap] at h
    split at h
    · next heq => cases h; exact quadrant_pdd_error_eq heq
    · split at h
      · next heq => cases h; exact quadrant2pddMap_error_eq heq
      · cases h

/-- A synthesized facet whose write lands outside the row leaves the zero
row, whose dot product vanishes. -/
theorem dotQ_zero_set_oob (c : ℚ) (j n : Nat) (v : List ℚ) (h : n ≤ j) :
    dotQ ((List.replicate n (0 : ℚ)).set j c) v = 0 := by
  rw [List.set_eq_of_length_le (by simpa using h)]
  exact dotQ_replicate_zero n v

/-- Every row built by `build_H` has nonnegative dot product with each vertex
that satisfies every row of `A` and is sign-consistent with the quadrant. -/
theorem build_H_row_sound (A : MatQ) (K : Nat) (q : Quadrant) (mh : List Nat)
    (v : List ℚ) (hq : q.length = K) (hv : v.length = K + 1)
    (hA : ∀ row ∈ A.data, 0 ≤ dotQ row v) (hs : signConsistent q v) :
    ∀ h ∈ (build_H A K q mh).data, 0 ≤ dotQ h v := by
  intro h hmem
  simp only [build_H, List.mem_map] at hmem
  obtain ⟨m, _, rfl⟩ := hmem
  by_cases hlt : m < A.rows
  · rw [if_pos hlt]
    exact hA _ (getD_mem _ _ _ hlt)
  · rw [if_neg hlt]
    by_cases hxiK : m - A.rows < K
    · rw [dotQ_zero_set _ _ (K + 1) v (by omega) hv]
      rcases hsgn : q.getD (m - A.rows) Sign.MINUS with _ | _
      · have hneg := (hs (m - A.rows) (by omega)).2 hsgn
        rw [if_pos rfl]
        nlinarith
      · have hpos := (hs (m - A.rows) (by omega)).1 hsgn
        rw [if_neg (by decide)]
        nlinarith
    · rw [dotQ_zero_set_oob _ _ _ _ (by omega)]

/-- C1: soundness of the per-quadrant PDDs.  For any input halfspace matrix
`A`, any maximal-index computation, and any quadrant map satisfying the
contracts of the octahedron enumerator and the quadrant splitter (each
retained vertex is a homogeneous point of the input octahedron — it
satisfies every row of `A` — and is sign-consistent with its quadrant),
every vertex row of every quadrant's PDD satisfies every retained constraint
row of that PDD's halfspace matrix with exact rational dot product `≥ 0`. -/
theorem fkrelu_pdd_soundness (A : MatQ) (K : Nat)
    (cmi : List (List Bool) → List Nat) (infos : List (Quadrant × QuadrantInfo))
    (pdds : List (Quadrant × PDD))
    (hcon : ∀ p ∈ infos, p.1.length = K ∧ ∀ v ∈ p.2.V,
        v.length = K + 1 ∧ (∀ row ∈ A.data, 0 ≤ dotQ row v) ∧ signConsistent p.1 v)
    (hrun : quadrant2pddMap A K cmi infos = .ok pdds) :
    ∀ pp ∈ pdds, ∀ h ∈ pp.2.H.data, ∀ v ∈ pp.2.V.data, 0 ≤ dotQ h v := by
  induction infos generalizing pdds with
  | nil =>
    rw [quadrant2pddMap] at hrun
    injection hrun with h
    subst h
    intro pp hpp
    cases hpp
  | cons p rest ih =>
    obtain ⟨q, info⟩ := p
    cases hq : quadrant_pdd A K cmi q info with
    | error e =>
      rw [quadrant2pddMap, hq] at hrun
      cases hrun
    | ok pdd =>
      cases ht : quadrant2pddMap A K cmi rest with
      | error e =>
        rw [quadrant2pddMap, hq, ht] at hrun
        cases hrun
      | ok tail =>
        rw [quadrant2pddMap, hq, ht] at hrun
        injection hrun with h
        subst h
        intro pp hpp
        rcases List.mem_cons.mp hpp with rfl | htail
        · -- the PDD built for this quadrant
          obtain ⟨hq1, hq2⟩ := hcon (q, info) (List.mem_cons_self _ _)
          unfold quadrant_pdd at hq
          split at hq
          · injection hq with h
            subst h
            intro h hh
            cases hh
          · split at hq
            · cases hq
            · injection hq with h
              subst h
              intro h hh v hv
              obtain ⟨hvl, hvA, hvs⟩ := hq2 v hv
              exact build_H_row_sound A K q _ v hq1 hvl hvA hvs h hh
        · exact ih tail (fun p hp => hcon p (List.mem_cons_of_mem _ hp)) ht pp htail

/-- Witness for C1: the contracts are satisfiable and the theorem applies at
the concrete one-row K = 2 instance `AW` with the all-PLUS quadrant holding
the single vertex (0, 0). -/
theorem fkrelu_pdd_soundness_inst : 0 ≤ dotQ [1, 0, 0] [1, 0, 0] :=
  fkrelu_pdd_soundness AW 2 cmiW infosW [([Sign.PLUS, Sign.PLUS], pddW)]
    (by
      intro p hp
      simp only [infosW, List.mem_singleton] at hp
      subst hp
      refine ⟨rfl, ?_⟩
      intro v hv
      simp only [List.mem_singleton] at hv
      subst hv
      refine ⟨rfl, ?_, ?_⟩
      · intro row hrow
        simp only [AW, List.mem_singleton] at hrow
        subst hrow
        norm_num [dotQ]
      · intro i hi
        simp only [List.length_cons, List.length_nil] at hi
        interval_cases i <;> norm_num)
    (by rfl)
    ([Sign.PLUS, Sign.PLUS], pddW) (List.mem_cons_self _ _)
    [1, 0, 0] (by simp [pddW])
    [1, 0, 0] (by simp [pddW])

/-- A valid input has K in the allowed range. -/
theorem validInput_K_range {A : MatQ} (h : validInput A) :
    1 ≤ A.cols - 1 ∧ A.cols - 1 ≤ 4 := by
  by_cases hg : 1 ≤ A.cols - 1 ∧ A.cols - 1 ≤ 4
  · exact hg
  · exfalso
    unfold validInput verify_fkrelu_input at h
    rw [if_pos hg] at h
    cases h

/-- Every failure of the input validation is a malformed-input error. -/
theorem verify_error_malformed {A : MatQ} {e : FkErr}
    (h : verify_fkrelu_input A = .error e) : e.isMalformed = true := by
  simp only [verify_fkrelu_input] at h
  split at h
  · cases h; rfl
  · split at h
    · cases h; rfl
    · split at h
      · cases h
      · cases h; rfl

/-- On a valid two-column input, `fkrelu` takes the analytic K = 1 path. -/
theorem fkrelu_eq_relu_1 (oct : MatQ → OctahedronV)
    (split : OctahedronV → Nat → List (Quadrant × QuadrantInfo))
    (cmi : List (List Bool) → List Nat) (A : MatQ)
    (hc : A.cols = 2) (hv : validInput A) :
    fkrelu oct split cmi A = relu_1 (-(A.entry 0 0)) (A.entry 1 0) := by
  have hv' : verify_fkrelu_input A = .ok () := hv
  simp only [fkrelu, hc, hv']
  norm_num

/-- C2: for bounds straddling zero, `relu_1` returns exactly the three rows
`(0, 0, 1)`, `(0, -1, 1)`, `(lmd, mu, -1)` with `mu = ub/(ub-lb)` and
`lmd = -lb*ub/(ub-lb)`; for `lb = -1, ub = 2` this gives `mu = lmd = 2/3`;
and on a valid two-column input `fkrelu` returns
`relu_1(-A(0,0), A(1,0))`. -/
theorem relu_1_triangle (lb ub : ℚ) (h1 : lb < 0) (h2 : 0 < ub) :
    relu_1 lb ub =
      .ok ⟨3, [[0, 0, 1], [0, -1, 1],
        [-lb * ub / (ub - lb), ub / (ub - lb), -1]]⟩ ∧
    relu_1 (-1) 2 = .ok ⟨3, [[0, 0, 1], [0, -1, 1], [2/3, 2/3, -1]]⟩ ∧
    ∀ (oct : MatQ → OctahedronV)
      (split : OctahedronV → Nat → List (Quadrant × QuadrantInfo))
      (cmi : List (List Bool) → List Nat) (A : MatQ),
      A.cols = 2 → validInput A →
      fkrelu oct split cmi A = relu_1 (-(A.entry 0 0)) (A.entry 1 0) := by
  refine ⟨relu_1_ok h1 h2, ?_,
    fun oct split cmi A hc hv => fkrelu_eq_relu_1 oct split cmi A hc hv⟩
  rw [relu_1_ok (show (-1 : ℚ) < 0 by norm_num) (show (0 : ℚ) < 2 by norm_num)]
  norm_num

/-- Witness for C2 at `lb = -1, ub = 2` and the valid input `AK1`. -/
theorem relu_1_triangle_inst :
    fkrelu octTriv splitTriv cmiTriv AK1 =
      relu_1 (-(AK1.entry 0 0)) (AK1.entry 1 0) :=
  (relu_1_triangle (-1) 2 (by norm_num) (by norm_num)).2.2
    octTriv splitTriv cmiTriv AK1 rfl (by decide)

/-- C3: `fkrelu` fails with a malformed-input error, producing no output,
exactly when the input is not a valid octahedral matrix: K out of [1, 4],
wrong row count, or a coefficient deviating from the per-K table. -/
theorem fkrelu_rejects_malformed (oct : MatQ → OctahedronV)
    (split : OctahedronV → Nat → List (Quadrant × QuadrantInfo))
    (cmi : List (List Bool) → List Nat) (A : MatQ) :
    (∃ e, fkrelu oct split cmi A = .error e ∧ e.isMalformed = true) ↔
      ¬ validInput A := by
  constructor
  · rintro ⟨e, he, hm⟩ hv
    have hv' : verify_fkrelu_input A = .ok () := hv
    have hg := validInput_K_range hv
    simp only [fkrelu, hv'] at he
    rw [if_neg (not_not_intro hg)] at he
    split at he
    · rcases relu_1_error_cases he with rfl | rfl <;> cases hm
    · split at he
      · next heq =>
        injection he with h
        subst h
        rw [quadrant2pddMap_error_eq heq] at hm
        cases hm
      · cases he
  · intro hv
    by_cases hg : 1 ≤ A.cols - 1 ∧ A.cols - 1 ≤ 4
    · cases hver : verify_fkrelu_input A with
      | ok u =>
        exact absurd (by cases u; exact hver) hv
      | error e =>
        refine ⟨e, ?_, verify_error_malformed hver⟩
        simp only [fkrelu, hver]
        rw [if_neg (not_not_intro hg)]
    · refine ⟨.invalidK, ?_, rfl⟩
      simp only [fkrelu]
      rw [if_pos hg]

/-- C5: `relu_1` fails exactly when the bounds are out of order or do not
strictly straddle zero, and succeeds exactly on `lb < 0 < ub`. -/
theorem relu_1_error_iff (lb ub : ℚ) :
    ((∃ e, relu_1 lb ub = .error e) ↔ (ub < lb ∨ ¬ (lb < 0 ∧ 0 < ub))) ∧
    ((∃ M, relu_1 lb ub = .ok M) ↔ (lb < 0 ∧ 0 < ub)) := by
  unfold relu_1
  by_cases h1 : lb ≤ ub
  · rw [if_neg (not_not_intro h1)]
    by_cases h2 : lb < 0 ∧ 0 < ub
    · rw [if_neg (not_not_intro h2)]
      constructor
      · constructor
        · rintro ⟨e, he⟩
          cases he
        · rintro (hlt | hns)
          · exact absurd h1 (not_le.mpr hlt)
          · exact absurd h2 hns
      · exact ⟨fun _ => h2, fun _ => ⟨_, rfl⟩⟩
    · rw [if_pos h2]
      refine ⟨⟨fun _ => Or.inr h2, fun _ => ⟨_, rfl⟩⟩, ?_, fun hc => absurd hc h2⟩
      rintro ⟨M, hM⟩
      cases hM
  · rw [if_pos h1]
    refine ⟨⟨fun _ => Or.inl (not_le.mp h1), fun _ => ⟨_, rfl⟩⟩, ?_, ?_⟩
    · rintro ⟨M, hM⟩
      cases hM
    · rintro ⟨hlb, hub⟩
      exact absurd (le_of_lt (hlb.trans hub)) h1

/-- Rows built by `build_H` all have length K + 1. -/
theorem build_H_rows_len (A : MatQ) (K : Nat) (q : Quadrant) (mh : List Nat)
    (hwf : A.Wf) (hcols : A.cols = K + 1) :
    ∀ r ∈ (build_H A K q mh).data, r.length = K + 1 := by
  intro r hr
  simp only [build_H, List.mem_map] at hr
  obtain ⟨m, _, rfl⟩ := hr
  by_cases hlt : m < A.rows
  · rw [if_pos hlt]
    rw [hwf _ (getD_mem _ _ _ hlt), hcols]
  · rw [if_neg hlt]
    simp

/-- Rows of every halfspace matrix produced by the per-quadrant loop have
length K + 1. -/
theorem quadrant2pddMap_H_rows_len (A : MatQ) (K : Nat)
    (cmi : List (List Bool) → List Nat) (infos : List (Quadrant × QuadrantInfo))
    (pdds : List (Quadrant × PDD)) (hwf : A.Wf) (hcols : A.cols = K + 1)
    (hrun : quadrant2pddMap A K cmi infos = .ok pdds) :
    ∀ pp ∈ pdds, ∀ r ∈ pp.2.H.data, r.length = K + 1 := by
  induction infos generalizing pdds with
  | nil =>
    rw [quadrant2pddMap] at hrun
    injection hrun with h
    subst h
    intro pp hpp
    cases hpp
  | cons p rest ih =>
    obtain ⟨q, info⟩ := p
    cases hq : quadrant_pdd A K cmi q info with
    | error e =>
      rw [quadrant2pddMap, hq] at hrun
      cases hrun
    | ok pdd =>
      cases ht : quadrant2pddMap A K cmi rest with
      | error e =>
        rw [quadrant2pddMap, hq, ht] at hrun
        cases hrun
      | ok tail =>
        rw [quadrant2pddMap, hq, ht] at hrun
        injection hrun with h
        subst h
        intro pp hpp
        rcases List.mem_cons.mp hpp with rfl | htail
        · unfold quadrant_pdd at hq
          split at hq
          · injection hq with h
            subst h
            intro r hr
            cases hr
          · split at hq
            · cases hq
            · injection hq with h
              subst h
              exact build_H_rows_len A K q _ hwf hcols
        · exact ih tail ht pp htail

/-- The `.ok` result of `relu_1` is a well-formed three-column matrix. -/
theorem relu_1_ok_shape {lb ub : ℚ} {M : MatQ} (h : relu_1 lb ub = .ok M) :
    M.cols = 3 ∧ M.Wf := by
  unfold relu_1 at h
  split at h
  · cases h
  · split at h
    · cases h
    · injection h with h
      subst h
      refine ⟨rfl, ?_⟩
      intro r hr
      simp only [List.mem_cons, List.not_mem_nil, or_false] at hr
      rcases hr with rfl | rfl | rfl <;> rfl

/-- Full evaluation of `fkrelu` at the valid K = 1 input `AK1`. -/
theorem fkrelu_AK1_eval :
    fkrelu octTriv splitTriv cmiTriv AK1 =
      .ok ⟨3, [[0, 0, 1], [0, -1, 1], [2/3, 2/3, -1]]⟩ := by
  rw [fkrelu_eq_relu_1 octTriv splitTriv cmiTriv AK1 rfl (by decide)]
  have he : relu_1 (-(AK1.entry 0 0)) (AK1.entry 1 0) = relu_1 (-1) 2 := by
    norm_num [MatQ.entry, AK1]
  rw [he, relu_1_ok (show (-1 : ℚ) < 0 by norm_num) (show (0 : ℚ) < 2 by norm_num)]
  norm_num

/-- C4, counterexample to the claim as stated: on the accepted K = 1 input
`AK1`, `fkrelu` returns a matrix with 3 columns, not K + 1 = 2. -/
theorem fkrelu_k1_cols_cex :
    (∃ M, fkrelu octTriv splitTriv cmiTriv AK1 = .ok M ∧ M.cols = 3) ∧
    validInput AK1 ∧ AK1.cols - 1 = 1 ∧ ¬ (3 = AK1.cols - 1 + 1) := by
  exact ⟨⟨_, fkrelu_AK1_eval, rfl⟩, by decide, rfl, by decide⟩

/-- C4, amended: whenever `fkrelu` returns a matrix, that matrix has
`2K + 1 = 3` columns in the analytic K = 1 case and `K + 1` columns for
`K ≥ 2`, and all its rows have that length. -/
theorem fkrelu_output_cols (oct : MatQ → OctahedronV)
    (split : OctahedronV → Nat → List (Quadrant × QuadrantInfo))
    (cmi : List (List Bool) → List Nat) (A M : MatQ) (hwf : A.Wf)
    (hok : fkrelu oct split cmi A = .ok M) :
    M.cols = (if A.cols - 1 = 1 then 2 * (A.cols - 1) + 1 else A.cols) ∧
    M.Wf := by
  simp only [fkrelu] at hok
  split at hok
  · cases hok
  · next hg =>
    have hg' : 1 ≤ A.cols - 1 ∧ A.cols - 1 ≤ 4 := not_not.mp hg
    split at hok
    · cases hok
    · split at hok
      · next hK1 =>
        obtain ⟨hc3, hwfM⟩ := relu_1_ok_shape hok
        rw [if_pos hK1, hK1, hc3]
        exact ⟨rfl, hwfM⟩
      · next hK1 =>
        split at hok
        · cases hok
        · next pdds hpdds =>
          injection hok with h
          subst h
          have hcols : A.cols = (A.cols - 1) + 1 := by omega
          rw [if_neg hK1]
          refine ⟨hcols.symm, ?_⟩
          intro r hr
          show r.length = A.cols - 1 + 1
          simp only [decomposition, List.mem_dedup, List.mem_flatMap] at hr
          obtain ⟨pp, hpp, hrr⟩ := hr
          exact quadrant2pddMap_H_rows_len A (A.cols - 1) cmi _ pdds hwf
            hcols hpdds pp hpp r hrr

/-- Witness for C4's amended statement at the concrete input `AK1`. -/
theorem fkrelu_output_cols_inst :
    (⟨3, [[0, 0, 1], [0, -1, 1], [2/3, 2/3, -1]]⟩ : MatQ).Wf :=
  (fkrelu_output_cols octTriv splitTriv cmiTriv AK1 _ (by decide)
    fkrelu_AK1_eval).2

/-- C6: transposing a non-empty incidence list whose bitsets share a common
positive size, twice, returns the original list. -/
theorem transpose_incidence_roundtrip (input : List (List Bool)) (n : Nat)
    (hne : input ≠ []) (hn : 0 < n) (hlen : ∀ b ∈ input, b.length = n) :
    (transpose_incidence input).bind transpose_incidence = .ok input := by
  have hie : input.isEmpty = false := by
    cases input
    · exact absurd rfl hne
    · rfl
  have hhead : (input.headD []).length = n := by
    cases input with
    | nil => exact absurd rfl hne
    | cons b0 rest => exact hlen b0 (List.mem_cons_self _ _)
  set T := (List.range n).map (fun col =>
    (List.range input.length).map fun row => bset_test (input.getD row []) col)
    with hT
  have h1 : transpose_incidence input = .ok T := by
    simp only [transpose_incidence, hie, hhead, Bool.false_eq_true, if_false, hT]
  rw [h1]
  show transpose_incidence T = .ok input
  have hTlen : T.length = n := by simp [hT]
  have hTie : T.isEmpty = false := by
    cases hTe : T with
    | nil => rw [hTe] at hTlen; simp at hTlen; omega
    | cons a l => rfl
  have hThead : (T.headD []).length = input.length := by
    cases n with
    | zero => omega
    | succ m => simp [hT, List.range_succ_eq_map]
  have h2 : transpose_incidence T = .ok ((List.range input.length).map fun col =>
      (List.range T.length).map fun row => bset_test (T.getD row []) col) := by
    simp only [transpose_incidence, hTie, hThead, Bool.false_eq_true, if_false]
  rw [h2, hTlen]
  congr 1
  apply List.ext_getElem
  · simp
  · intro col h1c h2c
    simp only [List.getElem_map, List.getElem_range]
    apply List.ext_getElem
    · simp [hlen _ (List.getElem_mem h2c)]
    · intro row hr1 hr2
      simp only [List.getElem_map, List.getElem_range]
      have hrown : row < n := by simpa using hr1
      have hTrow : T.getD row [] = (List.range input.length).map
          (fun r => bset_test (input.getD r []) row) := by
        rw [List.getD_eq_getElem T [] (by omega : row < T.length)]
        simp [hT]
      rw [hTrow, bset_test,
        List.getD_eq_getElem _ _ (by simpa using h2c)]
      simp only [List.getElem_map, List.getElem_range]
      rw [bset_test, List.getD_eq_getElem input [] h2c,
        List.getD_eq_getElem _ _ hr2]

/-- Witness for C6 at a concrete 3-by-2 incidence list. -/
theorem transpose_incidence_roundtrip_inst :
    (transpose_incidence incW).bind transpose_incidence = .ok incW :=
  transpose_incidence_roundtrip incW 2 (by decide) (by decide) (by decide)

/-- C7: row `i` of a per-quadrant halfspace matrix is a copy of row
`maximal_H[i]` of `A` when that index is below `A.rows()`, and otherwise an
axis-aligned facet: all zeros except entry `(maximal_H[i] - A.rows()) + 1`,
which is -1 for a MINUS sign label and +1 for a PLUS label. -/
theorem build_H_row_cases (A : MatQ) (K : Nat) (q : Quadrant) (mh : List Nat)
    (i : Nat) (hi : i < mh.length) (_hm : mh.getD i 0 < A.rows + K) :
    (mh.getD i 0 < A.rows →
      (build_H A K q mh).data.getD i [] = A.data.getD (mh.getD i 0) []) ∧
    (A.rows ≤ mh.getD i 0 →
      ∀ j, j < K + 1 →
        ((build_H A K q mh).data.getD i []).getD j 0 =
          if j = (mh.getD i 0 - A.rows) + 1 then
            (if q.getD (mh.getD i 0 - A.rows) Sign.MINUS = Sign.MINUS
             then -1 else 1)
          else 0) := by
  have hrow : (build_H A K q mh).data.getD i [] =
      (if mh.getD i 0 < A.rows then A.data.getD (mh.getD i 0) []
       else (List.replicate (K + 1) (0 : ℚ)).set ((mh.getD i 0 - A.rows) + 1)
         (if q.getD (mh.getD i 0 - A.rows) Sign.MINUS = Sign.MINUS
          then -1 else 1)) := by
    simp only [build_H]
    rw [List.getD_eq_getElem _ _ (by simpa using hi), List.getElem_map,
      List.getD_eq_getElem mh 0 hi]
  constructor
  · intro h
    rw [hrow, if_pos h]
  · intro h j hj
    rw [hrow, if_neg (not_lt.mpr h), getD_set]
    simp only [List.length_replicate]
    by_cases hje : (mh.getD i 0 - A.rows) + 1 = j
    · rw [if_pos ⟨hje, hj⟩, if_pos hje.symm]
    · rw [if_neg (by tauto), if_neg (fun hh => hje hh.symm), getD_replicate_zero]

/-- Witness for C7 at the `AW` instance: row 0 copies row 0 of `A`. -/
theorem build_H_row_cases_inst :
    (build_H AW 2 [Sign.PLUS, Sign.PLUS] [0, 1, 2]).data.getD 0 [] =
      AW.data.getD 0 [] :=
  (build_H_row_cases AW 2 [Sign.PLUS, Sign.PLUS] [0, 1, 2] 0 (by decide)
    (by decide)).1 (by decide)

/-- C8: a quadrant whose vertex list is empty is recorded in the
quadrant-to-PDD map (not omitted), with dimension K + 1, 0-by-(K+1) vertex
and halfspace matrices, and empty incidence. -/
theorem empty_quadrant_empty_pdd (A : MatQ) (K : Nat)
    (cmi : List (List Bool) → List Nat) (infos : List (Quadrant × QuadrantInfo))
    (pdds : List (Quadrant × PDD)) (q : Quadrant) (info : QuadrantInfo)
    (hmem : (q, info) ∈ infos) (hempty : info.V = [])
    (hrun : quadrant2pddMap A K cmi infos = .ok pdds) :
    (q, (⟨K + 1, ⟨K + 1, []⟩, ⟨K + 1, []⟩, []⟩ : PDD)) ∈ pdds := by
  induction infos generalizing pdds with
  | nil => cases hmem
  | cons p rest ih =>
    obtain ⟨q', info'⟩ := p
    cases hq : quadrant_pdd A K cmi q' info' with
    | error e =>
      rw [quadrant2pddMap, hq] at hrun
      cases hrun
    | ok pdd =>
      cases ht : quadrant2pddMap A K cmi rest with
      | error e =>
        rw [quadrant2pddMap, hq, ht] at hrun
        cases hrun
      | ok tail =>
        rw [quadrant2pddMap, hq, ht] at hrun
        injection hrun with h
        subst h
        rcases List.mem_cons.mp hmem with heq | htail
        · injection heq with h1 h2
          subst h1
          subst h2
          rw [quadrant_pdd, if_pos (by simp [hempty])] at hq
          injection hq with h
          subst h
          exact List.mem_cons_self _ _
        · exact List.mem_cons_of_mem _ (ih tail htail ht)

/-- Witness for C8 at the concrete map `infosE` holding one empty quadrant. -/
theorem empty_quadrant_empty_pdd_inst :
    ([Sign.MINUS, Sign.MINUS], (⟨3, ⟨3, []⟩, ⟨3, []⟩, []⟩ : PDD)) ∈
      [([Sign.MINUS, Sign.MINUS], (⟨3, ⟨3, []⟩, ⟨3, []⟩, []⟩ : PDD))] :=
  empty_quadrant_empty_pdd AW 2 cmiW infosE _ [Sign.MINUS, Sign.MINUS]
    ⟨[], []⟩ (by decide) rfl rfl

/-- The first generator fold preserves the row's length. -/
theorem foldl_set_length (v : List ℚ) :
    ∀ (L : List Nat) (r : List ℚ),
      (L.foldl (fun r i => r.set i (v.getD i 0)) r).length = r.length
  | [], _ => rfl
  | i :: L, r => by
    rw [List.foldl_cons, foldl_set_length v L, List.length_set]

/-- Entries after copying the first `n` coordinates of `v` into the row. -/
theorem foldl_set_range_getD (v : List ℚ) (r0 : List ℚ) :
    ∀ (n j : Nat), n ≤ r0.length →
      ((List.range n).foldl (fun r i => r.set i (v.getD i 0)) r0).getD j 0 =
        if j < n then v.getD j 0 else r0.getD j 0 := by
  intro n
  induction n with
  | zero => intro j _; simp
  | succ m ih =>
    intro j h
    rw [List.range_succ, List.foldl_append]
    simp only [List.foldl_cons, List.foldl_nil]
    rw [getD_set, foldl_set_length]
    by_cases hj : m = j
    · subst hj
      rw [if_pos ⟨rfl, by omega⟩, if_pos (by omega)]
    · rw [if_neg (by tauto), ih j (by omega)]
      by_cases hjm : j < m
      · rw [if_pos hjm, if_pos (by omega)]
      · rw [if_neg hjm, if_neg (by omega)]

/-- The projection fold preserves the row's length. -/
theorem foldl_proj_length (K : Nat) (q : Quadrant) (v : List ℚ) :
    ∀ (L : List Nat) (r : List ℚ),
      (L.foldl (fun r i =>
        if q.getD i Sign.MINUS = Sign.PLUS then r.set (1 + i + K) (v.getD (1 + i) 0)
        else r) r).length = r.length
  | [], _ => rfl
  | i :: L, r => by
    rw [List.foldl_cons, foldl_proj_length K q v L]
    by_cases hsi : q.getD i Sign.MINUS = Sign.PLUS
    · rw [if_pos hsi, List.length_set]
    · rw [if_neg hsi]

/-- The projection fold leaves untouched positions unchanged. -/
theorem foldl_proj_getD_ne (K : Nat) (q : Quadrant) (v : List ℚ) :
    ∀ (L : List Nat) (r : List ℚ) (j : Nat), (∀ i ∈ L, 1 + i + K ≠ j) →
      (L.foldl (fun r i => if q.getD i Sign.MINUS = Sign.PLUS
          then r.set (1 + i + K) (v.getD (1 + i) 0) else r) r).getD j 0 =
        r.getD j 0
  | [], _, _, _ => rfl
  | i :: L, r, j, h => by
    rw [List.foldl_cons,
      foldl_proj_getD_ne K q v L _ j (fun x hx => h x (List.mem_cons_of_mem _ hx))]
    by_cases hsi : q.getD i Sign.MINUS = Sign.PLUS
    · rw [if_pos hsi, getD_set,
        if_neg (by have := h i (List.mem_cons_self _ _); tauto)]
    · rw [if_neg hsi]

/-- The projection fold writes position `1 + i0 + K` exactly when the sign
for dimension `i0` is PLUS. -/
theorem foldl_proj_getD_target (K : Nat) (q : Quadrant) (v : List ℚ) (i0 : Nat) :
    ∀ (n : Nat) (r : List ℚ), i0 < n → 1 + i0 + K < r.length →
      ((List.range n).foldl (fun r i => if q.getD i Sign.MINUS = Sign.PLUS
          then r.set (1 + i + K) (v.getD (1 + i) 0) else r) r).getD (1 + i0 + K) 0 =
        if q.getD i0 Sign.MINUS = Sign.PLUS then v.getD (1 + i0) 0
        else r.getD (1 + i0 + K) 0 := by
  intro n
  induction n with
  | zero => intro r h _; omega
  | succ m ih =>
    intro r hi0 hlen
    rw [List.range_succ, List.foldl_append]
    simp only [List.foldl_cons, List.foldl_nil]
    by_cases him : i0 = m
    · subst him
      by_cases hsi : q.getD i0 Sign.MINUS = Sign.PLUS
      · rw [if_pos hsi, getD_set,
          if_pos ⟨rfl, by rw [foldl_proj_length]; omega⟩, if_pos hsi]
      · rw [if_neg hsi, if_neg hsi]
        exact foldl_proj_getD_ne K q v (List.range i0) r _ (fun x hx => by
          have := List.mem_range.mp hx; omega)
    · have hstep : ∀ r' : List ℚ, (if q.getD m Sign.MINUS = Sign.PLUS
          then r'.set (1 + m + K) (v.getD (1 + m) 0) else r').getD (1 + i0 + K) 0 =
            r'.getD (1 + i0 + K) 0 := by
        intro r'
        by_cases hsm : q.getD m Sign.MINUS = Sign.PLUS
        · rw [if_pos hsm, getD_set, if_neg (by omega)]
        · rw [if_neg hsm]
      rw [hstep, ih r (by omega) hlen]

/-- Entrywise description of one generator row. -/
theorem build_vertex_row_spec (K : Nat) (q : Quadrant) (v : List ℚ) :
    (build_vertex_row K q v).length = 2 * K + 1 ∧
    (∀ j, j < K + 1 → (build_vertex_row K q v).getD j 0 = v.getD j 0) ∧
    (∀ i, i < K → (build_vertex_row K q v).getD (1 + i + K) 0 =
      if q.getD i Sign.MINUS = Sign.PLUS then v.getD (1 + i) 0 else 0) := by
  simp only [build_vertex_row]
  refine ⟨?_, ?_, ?_⟩
  · rw [foldl_proj_length, foldl_set_length, List.length_replicate]
  · intro j hj
    rw [foldl_proj_getD_ne K q v (List.range K) _ j (fun i hi => by
      have := List.mem_range.mp hi; omega)]
    rw [foldl_set_range_getD v _ (K + 1) j (by simp; omega), if_pos hj]
  · intro i hi
    rw [foldl_proj_getD_target K q v i K _ hi
      (by rw [foldl_set_length]; simp; omega)]
    by_cases hsi : q.getD i Sign.MINUS = Sign.PLUS
    · rw [if_pos hsi, if_pos hsi]
    · rw [if_neg hsi, if_neg hsi,
        foldl_set_range_getD v _ (K + 1) _ (by simp; omega),
        if_neg (by omega), getD_replicate_zero]

/-- C9: the cross-check generator matrix has one row per vertex over all
quadrants; each row has width 2K + 1, carries the vertex's K + 1 homogeneous
coordinates in its first K + 1 columns, and in output column `1 + i + K`
carries coordinate `1 + i` when the quadrant's sign for dimension `i` is
PLUS and zero when it is MINUS. -/
theorem krelu_generator_rows (K : Nat) (infos : List (Quadrant × QuadrantInfo))
    (q : Quadrant) (info : QuadrantInfo) (v : List ℚ)
    (hmem : (q, info) ∈ infos) (hv : v ∈ info.V) :
    (build_generator K infos).length = (infos.map fun p => p.2.V.length).sum ∧
    build_vertex_row K q v ∈ build_generator K infos ∧
    (build_vertex_row K q v).length = 2 * K + 1 ∧
    (∀ j, j < K + 1 → (build_vertex_row K q v).getD j 0 = v.getD j 0) ∧
    (∀ i, i < K → (build_vertex_row K q v).getD (1 + i + K) 0 =
      if q.getD i Sign.MINUS = Sign.PLUS then v.getD (1 + i) 0 else 0) := by
  obtain ⟨h1, h2, h3⟩ := build_vertex_row_spec K q v
  refine ⟨?_, ?_, h1, h2, h3⟩
  · rw [build_generator, List.length_flatMap]
    congr 1
    simp [Function.comp]
  · rw [build_generator, List.mem_flatMap]
    exact ⟨(q, info), hmem, List.mem_map_of_mem _ hv⟩

/-- Witness for C9: the generator row of the vertex `vW` in quadrant `qW`
appears in the generator matrix of `infosV`. -/
theorem krelu_generator_rows_inst :
    build_vertex_row 2 qW vW ∈ build_generator 2 infosV :=
  (krelu_generator_rows 2 infosV qW ⟨[vW], [[true]]⟩ vW (by decide)
    (by decide)).2.1

/-- C10: the cross-check path performs no octahedral input validation — its
only failure modes are the K-range check and the cdd conversion failure, and
on the concrete input `AK1bad` (one row instead of two), which `fkrelu`
rejects with the row-count error, `krelu_with_cdd` raises no malformed-input
error for any choice of backends. -/
theorem krelu_with_cdd_skips_validation :
    (∀ (quadrants : MatQ → List (Quadrant × QuadrantInfo))
       (ddSolve : List (List ℚ) → Option MatQ) (A : MatQ) (e : FkErr),
       krelu_with_cdd quadrants ddSolve A = .error e →
       e = .invalidK ∨ e = .ddConversion) ∧
    (∀ (oct : MatQ → OctahedronV)
       (split : OctahedronV → Nat → List (Quadrant × QuadrantInfo))
       (cmi : List (List Bool) → List Nat),
       fkrelu oct split cmi AK1bad = .error .invalidRows) ∧
    (∀ (quadrants : MatQ → List (Quadrant × QuadrantInfo))
       (ddSolve : List (List ℚ) → Option MatQ) (e : FkErr),
       krelu_with_cdd quadrants ddSolve AK1bad = .error e →
       e.isMalformed = false) := by
  refine ⟨?_, ?_, ?_⟩
  · intro quadrants ddSolve A e h
    simp only [krelu_with_cdd] at h
    split at h
    · injection h with h
      exact Or.inl h.symm
    · split at h
      · injection h with h
        exact Or.inr h.symm
      · cases h
  · intro oct split cmi
    have hver : verify_fkrelu_input AK1bad = .error .invalidRows := by decide
    simp only [fkrelu, hver]
    rw [if_neg (not_not_intro (by decide))]
  · intro quadrants ddSolve e h
    simp only [krelu_with_cdd] at h
    split at h
    · next hg => exact absurd (by decide) hg
    · split at h
      · injection h with h
        subst h
        rfl
      · cases h

end ELINA
